import Mathlib

/-!
Verification development for `navani` (`src/navani/echem.py`), a library that
normalises battery-cycler data tables: it classifies each sample's
electrochemical state from the sign of the current, segments the stream into
half cycles, zeroes the capacity at each half-cycle start, aggregates
per-cycle summaries and computes differential-capacity curves.

All numeric cell values are modelled as rationals (the Python code only
compares, adds, subtracts, multiplies and divides), tables as lists indexed by
row position, and the pandas column operations as list functions.
-/

namespace Navani

/-- The `state` column values: Python uses the string `'R'` for rest
and the integer labels `0` and `1` for the two current directions. -/
inductive St
  | rest
  | s0
  | s1
deriving DecidableEq, Repr

/-- `arbin_state` (echem.py lines 185-194): `x > 0 ↦ 0`, `x < 0 ↦ 1`,
`x == 0 ↦ 'R'`. -/
def arbin_state (x : ℚ) : St :=
  if x > 0 then St.s0 else if x < 0 then St.s1 else St.rest

/-- `bio_state` (echem.py lines 236-245), identical sign rule to
`arbin_state`; applied to the current column or to the voltage-delta
fallback column `dV`. -/
def bio_state (x : ℚ) : St :=
  if x > 0 then St.s0 else if x < 0 then St.s1 else St.rest

/-- `land_state` (echem.py lines 369-378 and 404-413), same sign rule. -/
def land_state (x : ℚ) : St :=
  if x > 0 then St.s0 else if x < 0 then St.s1 else St.rest

/-- `ivium_state` (echem.py lines 335-339): `x >= 0 ↦ 0`, otherwise `1`.
Note this classifier never returns `'R'`. -/
def ivium_state (x : ℚ) : St :=
  if x ≥ 0 then St.s0 else St.s1

/-- The `state` column of `neware_reader` (echem.py lines 498-501):
a categorical column defaulted to `"unknown"`, then set from the
instrument `Status` string, not from the current. -/
inductive NwSt
  | rest
  | chg
  | dchg
  | unknown
deriving DecidableEq, Repr

/-- State assignment of `neware_reader` (echem.py lines 498-501). -/
def neware_state (status : String) : NwSt :=
  if status = "Rest" then NwSt.rest
  else if status = "CC_Chg" then NwSt.chg
  else if status = "CC_DChg" then NwSt.dchg
  else NwSt.unknown

/-- The `cycle change` column as computed by `arbin_res` (lines 197-200),
`biologic_processing` (283-286), both land readers and `arbin_excel`:
all rows start at `False`; on the subsequence of non-rest rows, a row is
`True` iff its state differs from the previous non-rest row's state
(`.ne(.shift())`, which is `True` on the first non-rest row).
`prev` carries the previous non-rest state seen so far. -/
def cycle_change : Option St → List St → List Bool
  | _, [] => []
  | prev, s :: rest =>
    if s = St.rest then false :: cycle_change prev rest
    else decide (prev ≠ some s) :: cycle_change (some s) rest

/-- `.ne(.shift())` over all rows, as used by `ivium_processing`
(line 342), which does not exclude rest rows. -/
def cycle_change_all : Option St → List St → List Bool
  | _, [] => []
  | prev, s :: rest => decide (prev ≠ some s) :: cycle_change_all (some s) rest

/-- Pandas `.cumsum()` on a boolean column starting from a running total
`n`: each output entry is the count of `True` entries so far (inclusive). -/
def cumsum_true : ℕ → List Bool → List ℕ
  | _, [] => []
  | n, b :: rest =>
    let m := if b then n + 1 else n
    m :: cumsum_true m rest

/-- The `half cycle` column: `(df['cycle change'] == True).cumsum()`
(echem.py line 201 and the analogous lines of the other readers). -/
def half_cycles (states : List St) : List ℕ :=
  cumsum_true 0 (cycle_change none states)

/-- The ivium `half cycle` column (line 342), cumulative sum of the
unrestricted state-change indicator. -/
def ivium_half_cycles_of_states (states : List St) : List ℕ :=
  cumsum_true 0 (cycle_change_all none states)

/-- Fused scan form of `cumsum_true ∘ cycle_change`: carries the previous
non-rest state and the running transition count. -/
def hcScan : Option St → ℕ → List St → List ℕ
  | _, _, [] => []
  | prev, n, s :: rest =>
    if s = St.rest then n :: hcScan prev n rest
    else
      (if prev ≠ some s then n + 1 else n) ::
        hcScan (some s) (if prev ≠ some s then n + 1 else n) rest

/-! ### Positional description of the half-cycle column

`prevValN n l i` is the entry just before position `i` (`n` if `i = 0`),
`lastNRo prev states i` the state of the last non-rest row before `i`
(`prev` if none), and `lastAssigned n hcs states i` the half-cycle value
most recently assigned to a non-rest row before `i` (`n` if none). -/

def prevValN (n : ℕ) (l : List ℕ) (i : ℕ) : ℕ :=
  ((l.take i).getLast?).getD n

def lastNRo (prev : Option St) (states : List St) (i : ℕ) : Option St :=
  match ((states.take i).filter (fun s => decide (s ≠ St.rest))).getLast? with
  | some s => some s
  | none => prev

def lastAssigned (n : ℕ) (hcs : List ℕ) (states : List St) (i : ℕ) : ℕ :=
  ((((hcs.zip states).take i).filter
      (fun p => decide (p.2 ≠ St.rest))).getLast?.map Prod.fst).getD n

/-! ### Capacity normalisation (arbin_res, arbin_excel, biologic, ivium) -/

/-- Position of the first row of half-cycle `h` that is not at rest:
`df[(df['half cycle'] == cycle) & (df['state'] != 'R')].index[0]`
(echem.py line 213). -/
def firstNonRestIdx (hcs : List ℕ) (states : List St) (h : ℕ) : ℕ :=
  (hcs.zip states).findIdx (fun p => p.1 == h && decide (p.2 ≠ St.rest))

/-- `len(idx) > 0` for that selection (echem.py line 214). -/
def hasNonRest (hcs : List ℕ) (states : List St) (h : ℕ) : Bool :=
  (hcs.zip states).any (fun p => p.1 == h && decide (p.2 ≠ St.rest))

/-- The per-half-cycle baseline subtraction loop of `arbin_res`
(echem.py lines 211-219) and `arbin_excel` (lines 455-462): for each
half-cycle with at least one non-rest row, the capacity of the first
non-rest row is subtracted from every row of that half-cycle; a
half-cycle with no non-rest rows is left untouched. -/
def subtractInitialCapacity (hcs : List ℕ) (states : List St) (caps : List ℚ) : List ℚ :=
  (List.range caps.length).map fun i =>
    if hasNonRest hcs states (hcs.getD i 0)
    then caps.getD i 0 - caps.getD (firstNonRestIdx hcs states (hcs.getD i 0)) 0
    else caps.getD i 0

/-- Position of the first row of half-cycle `h`: `cycle_idx[0]`
(echem.py line 313). -/
def firstIdxOfCycle (hcs : List ℕ) (h : ℕ) : ℕ :=
  hcs.findIdx (fun x => x == h)

/-- The `(Q-Qo)/C` branch of `biologic_processing` (echem.py lines
309-315): per half-cycle, `Capacity = raw − raw[cycle_idx[0]]`, the
baseline being the raw signal at the half-cycle's first row. -/
def subtractFirstOfCycle (hcs : List ℕ) (raw : List ℚ) : List ℚ :=
  (List.range raw.length).map fun i =>
    raw.getD i 0 - raw.getD (firstIdxOfCycle hcs (hcs.getD i 0)) 0

/-- Which pair of cumulative-capacity columns an Arbin `.res` table
carries: `Discharge_Capacity`/`Charge_Capacity` (already mAh),
`Discharge_Capacity(Ah)`/`Charge_Capacity(Ah)`, or neither. -/
inductive ArbinCapacityCols
  | plain (dis chg : List ℚ)
  | inAh (dis chg : List ℚ)
  | missing
deriving DecidableEq, Repr

/-- The pre-reset `Capacity` column of `arbin_res` (echem.py lines
203-209). The `(Ah)` branch is transcribed exactly as written in the
source: `df['Discharge_Capacity(Ah)'] + df['Charge_Capacity(Ah)'] * 1000`,
in which the multiplication binds only to the charge column. The
`missing` branch raises `KeyError`. -/
def arbin_res_capacity : ArbinCapacityCols → Except String (List ℚ)
  | .plain d c => .ok (List.zipWith (fun x y => x + y) d c)
  | .inAh d c => .ok (List.zipWith (fun x y => x + y * 1000) d c)
  | .missing => .error "Unable to find capacity columns, do not match Charge_Capacity or Charge_Capacity(Ah)"

/-- The pre-reset `Capacity` column of `arbin_excel` (echem.py line 453):
`(df['Discharge_Capacity(Ah)'] + df['Charge_Capacity(Ah)']) * 1000`. -/
def arbin_excel_capacity (d c : List ℚ) : List ℚ :=
  List.zipWith (fun x y => (x + y) * 1000) d c

/-- Per-half-cycle restarted cumulative sum of absolute values:
`df.loc[idx, col] = abs(df.loc[idx, vals]).cumsum()` applied for each
half-cycle value in turn (echem.py lines 343-346 and 301-305). Row `i`
receives the sum of `|vals[j]|` over all `j ≤ i` in `i`'s half-cycle. -/
def masked_abs_cumsum (hcs : List ℕ) (vals : List ℚ) : List ℚ :=
  (List.range vals.length).map fun i =>
    ∑ j ∈ (Finset.range (i + 1)).filter (fun j => hcs.getD j 0 = hcs.getD i 0),
      |vals.getD j 0|

/-- `np.diff(l, prepend=0)`: first entry `l[0] − 0`, then successive
differences (echem.py line 333). -/
def diff_prepend_zero (l : List ℚ) : List ℚ :=
  (List.range l.length).map fun i =>
    l.getD i 0 - (if i = 0 then 0 else l.getD (i - 1) 0)

/-- The `dq` column of `ivium_processing` (echem.py line 333):
`np.diff(df['time /s'], prepend=0) * df['I /mA']`. -/
def ivium_dq (times currents : List ℚ) : List ℚ :=
  List.zipWith (fun dt c => dt * c) (diff_prepend_zero times) currents

/-- The ivium `state` column (echem.py line 341). -/
def ivium_states (currents : List ℚ) : List St :=
  currents.map ivium_state

/-- The ivium `half cycle` column (echem.py line 342). -/
def ivium_half_cycles (currents : List ℚ) : List ℕ :=
  ivium_half_cycles_of_states (ivium_states currents)

/-- The final ivium `Capacity` column (echem.py lines 343-346):
per half-cycle, `abs(dq).cumsum()/3600`. -/
def ivium_capacity (times currents : List ℚ) : List ℚ :=
  (masked_abs_cumsum (ivium_half_cycles currents) (ivium_dq times currents)).map
    (fun x => x / 3600)

/-- Modelled from the spec, for comparison with `ivium_capacity`:
the claimed time step, with `dt[0]` defined as `0`. -/
def spec_ivium_dt (times : List ℚ) (i : ℕ) : ℚ :=
  if i = 0 then 0 else times.getD i 0 - times.getD (i - 1) 0

/-- Modelled from the spec, for comparison with `ivium_capacity`:
Mode B capacity as the claim states it — `dq[i] = current[i]*dt[i]/3600`
with `dt[0] := 0`, summed from the first sample of `i`'s half-cycle. -/
def spec_ivium_capacity (times currents : List ℚ) : List ℚ :=
  (List.range currents.length).map fun i =>
    ∑ j ∈ Finset.Icc
        (firstIdxOfCycle (ivium_half_cycles currents)
          ((ivium_half_cycles currents).getD i 0)) i,
      |currents.getD j 0 * spec_ivium_dt times j / 3600|

/-- The amended time step: `dt[0] = times[0] − 0` (the `prepend=0`
convention of the code), later steps as in the claim. -/
def amended_ivium_dt (times : List ℚ) (i : ℕ) : ℚ :=
  if i = 0 then times.getD 0 0 else times.getD i 0 - times.getD (i - 1) 0

/-- The amended Mode B capacity: as `spec_ivium_capacity` but with
`dt[0] = times[0]`. -/
def amended_ivium_capacity (times currents : List ℚ) : List ℚ :=
  (List.range currents.length).map fun i =>
    ∑ j ∈ Finset.Icc
        (firstIdxOfCycle (ivium_half_cycles currents)
          ((ivium_half_cycles currents).getD i 0)) i,
      |currents.getD j 0 * amended_ivium_dt times j / 3600|

/-- Which charge signal a Biologic table carries after the current/state
step: `Q charge/discharge/mA.h`, `dQ/mA.h`, `(Q-Qo)/C`, or none of
these (echem.py lines 295-319). -/
inductive BioChargeCols
  | qTotal (q : List ℚ)
  | dqCol (d : List ℚ)
  | qqo (q : List ℚ)
  | missing
deriving DecidableEq, Repr

/-- Outcome of the capacity step of `biologic_processing`: the
`Capacity` column if one was constructed, and whether the
unhandled-layout warning was printed. -/
structure BioResult where
  capacity : Option (List ℚ)
  warned : Bool
deriving DecidableEq, Repr

/-- The capacity tail of `biologic_processing` (echem.py lines 295-319).
Every branch returns the dataframe: the `missing` branch (lines 316-319)
prints `'Warning: unhandled column layout. No capacity or charge columns
found.'` and returns the table without a `Capacity` column; no branch
raises. -/
def biologic_capacity (hcs : List ℕ) : BioChargeCols → Except String BioResult
  | .qTotal q => .ok ⟨some (q.map (fun x => |x|)), false⟩
  | .dqCol d => .ok ⟨some (masked_abs_cumsum hcs d), false⟩
  | .qqo q => .ok ⟨some (subtractFirstOfCycle hcs q), false⟩
  | .missing => .ok ⟨none, true⟩

/-! ### Full-cycle column and the cycle_summary frame effect -/

/-- `np.ceil` on a rational, back as a rational (pandas stores the
result as a float column). -/
def np_ceil (x : ℚ) : ℚ := (⌈x⌉ : ℚ)

/-- `df['full cycle'] = (df['half cycle']/2).apply(np.ceil)`
(echem.py lines 156-157). -/
def echem_full_cycle_col (hcs : List ℚ) : List ℚ :=
  hcs.map (fun h => np_ceil (h / 2))

/-- The canonical columns of a processed table that `cycle_summary`
reads or writes. -/
structure EchemTable where
  halfCycle : List ℚ
  fullCycle : List ℚ
  current : List ℚ
  voltage : List ℚ
  capacity : List ℚ
  state : List St
deriving DecidableEq, Repr

/-- The effect of `cycle_summary` (echem.py lines 557-638) on its INPUT
table: line 581 overwrites `df['full cycle']` with
`(df['half cycle']/2).apply(np.ceil)` in place, and lines 585/595 coerce
the current column with `astype(float)` (value-preserving, so invisible
over ℚ). Every other write in the function targets the separate
`summary_df` object; the remaining reads leave `df` unchanged. -/
def cycle_summary_table (t : EchemTable) : EchemTable :=
  { t with fullCycle := t.halfCycle.map (fun h => np_ceil (h / 2)) }

/-! ### Neware reader -/

/-- One row as delivered by `NewareNDA.read`: the instrument `Status`
string and the vendor `Cycle` number. -/
structure NewareRow where
  status : String
  cycle : ℤ
deriving DecidableEq, Repr

/-- `df["half cycle"] = df["Cycle"]` (echem.py line 502): the neware
half-cycle column is the vendor cycle column, verbatim. -/
def neware_half_cycles (rows : List NewareRow) : List ℤ :=
  rows.map NewareRow.cycle

/-- The neware `state` column (echem.py lines 498-501). -/
def neware_states (rows : List NewareRow) : List NwSt :=
  rows.map (fun r => neware_state r.status)

/-! ### Differential-capacity pipeline (dqdv_single_cycle) -/

/-- `min(voltage)` over a nonempty list (`0` for the empty list, which
the pipeline never produces from a nonempty input). -/
def listMin : List ℚ → ℚ
  | [] => 0
  | x :: xs => xs.foldl min x

/-- `max(voltage)`. -/
def listMax : List ℚ → ℚ
  | [] => 0
  | x :: xs => xs.foldl max x

/-- `np.linspace(a, b, num)` with endpoint: `a + (b−a)·i/(num−1)`. -/
def linspace (a b : ℚ) (num : ℕ) : List ℚ :=
  (List.range num).map fun i : ℕ => a + (b - a) * (i : ℚ) / ((num : ℚ) - 1)

/-- The index of `df.astype(float).groupby('Voltage')`: the distinct
voltage values in increasing order. -/
def unique_sorted (l : List ℚ) : List ℚ :=
  List.insertionSort (fun a b => a ≤ b) l.dedup

/-- The mean capacity among rows whose voltage equals `v`
(`groupby('Voltage').mean()['Capacity']`). -/
def mean_at (caps volts : List ℚ) (v : ℚ) : ℚ :=
  let sel := ((volts.zip caps).filter (fun p => p.1 == v)).map Prod.snd
  sel.sum / sel.length

/-- Model of the scipy numerics the pipeline calls out to:
`savgolCore xs window polyorder` is the smoothing a successful
`savgol_filter` performs; `splineEval x y k s` is the function
`z ↦ splev(z, splrep(x, y, k, s))` and `splineDerivEval` its
`der=1` variant. The pipeline is proved for every such model. -/
structure SciModel where
  savgolCore : List ℚ → ℕ → ℕ → List ℚ
  splineEval : List ℚ → List ℚ → ℕ → ℚ → ℚ → ℚ
  splineDerivEval : List ℚ → List ℚ → ℕ → ℚ → ℚ → ℚ

/-- `scipy.signal.savgol_filter` with its documented parameter
validation: the window length must be odd, must not exceed the data
length (mode `'interp'`), and the polynomial order must be smaller than
the window; otherwise `ValueError` is raised. -/
def savgol_filter (core : List ℚ → ℕ → ℕ → List ℚ) (xs : List ℚ)
    (window polyorder : ℕ) : Except String (List ℚ) :=
  if window % 2 = 0 then .error "window_length must be odd"
  else if xs.length < window then .error "window_length is too large for input"
  else if window ≤ polyorder then .error "polyorder must be less than window_length"
  else .ok (core xs window polyorder)

/-- `dqdv_single_cycle` (echem.py lines 509-552): deduplicate by
voltage, build a 10000-point grid over [min, max] voltage, resample by
an order-1 spline, Savitzky-Golay smooth, fit a smoothing spline,
evaluate its derivative on the grid, optionally smooth again. The
source performs no parameter validation of its own; failures are the
scipy filter's. -/
def dqdv_single_cycle (M : SciModel) (capacity voltage : List ℚ)
    (polynomial_spline : ℕ) (s_spline : ℚ)
    (polyorder_1 window_size_1 polyorder_2 window_size_2 : ℕ)
    (final_smooth : Bool) : Except String (List ℚ × List ℚ × List ℚ) :=
  let unique_v := unique_sorted voltage
  let unique_v_cap := unique_v.map (mean_at capacity voltage)
  let x_volt := linspace (listMin voltage) (listMax voltage) 10000
  let y_cap := x_volt.map (M.splineEval unique_v unique_v_cap 1 0)
  match savgol_filter M.savgolCore y_cap window_size_1 polyorder_1 with
  | .error e => .error e
  | .ok smooth_cap =>
    let deriv := x_volt.map (M.splineDerivEval x_volt smooth_cap polynomial_spline s_spline)
    match savgol_filter M.savgolCore deriv window_size_2 polyorder_2 with
    | .error e => .error e
    | .ok smooth_deriv =>
      if final_smooth then .ok (x_volt, smooth_deriv, smooth_cap)
      else .ok (x_volt, deriv, smooth_cap)

/-- A trivial scipy model: smoothing is the identity and both splines
evaluate to `0`; used to instantiate pipeline theorems on concrete
inputs. -/
def sciModelTrivial : SciModel :=
  ⟨fun l _ _ => l, fun _ _ _ _ _ => 0, fun _ _ _ _ _ => 0⟩

/-- `j` is the first non-rest row of half-cycle `h`. -/
abbrev isFirstNonRestOf (hcs : List ℕ) (states : List St) (h j : ℕ) : Prop :=
  j < states.length ∧ hcs.getD j 0 = h ∧ states.getD j St.rest ≠ St.rest ∧
    ∀ k, k < j → ¬(hcs.getD k 0 = h ∧ states.getD k St.rest ≠ St.rest)

/-- The voltage grid of the C7 pipeline instance used as a witness. -/
def wGrid : List ℚ := linspace (listMin [0, 1]) (listMax [0, 1]) 10000

/-- The resampled capacity of that instance. -/
def wCap : List ℚ :=
  wGrid.map (sciModelTrivial.splineEval (unique_sorted [0, 1])
    ((unique_sorted [0, 1]).map (mean_at [0, 1] [0, 1])) 1 0)

/-- Its derivative array. -/
def wDer : List ℚ := wGrid.map (sciModelTrivial.splineDerivEval wGrid wCap 3 0)

-- (theorems follow)

theorem half_cycles_eq_hcScan (prev : Option St) (n : ℕ) (states : List St) :
    cumsum_true n (cycle_change prev states) = hcScan prev n states := by
  induction states generalizing prev n with
  | nil => rfl
  | cons s rest ih =>
    by_cases hs : s = St.rest
    · simp [cycle_change, hcScan, hs, cumsum_true, ih]
    · by_cases hp : prev ≠ some s
      · simp [cycle_change, hcScan, hs, hp, cumsum_true, ih]
      · simp [cycle_change, hcScan, hs, hp, cumsum_true, ih]

theorem hcScan_length (prev : Option St) (n : ℕ) (states : List St) :
    (hcScan prev n states).length = states.length := by
  induction states generalizing prev n with
  | nil => rfl
  | cons s rest ih =>
    by_cases hs : s = St.rest <;> simp [hcScan, hs, ih]

theorem half_cycles_length (states : List St) :
    (half_cycles states).length = states.length := by
  rw [half_cycles, half_cycles_eq_hcScan, hcScan_length]

theorem hcScan_ge (prev : Option St) (n : ℕ) (states : List St) :
    ∀ x ∈ hcScan prev n states, n ≤ x := by
  induction states generalizing prev n with
  | nil => intro x hx; simp [hcScan] at hx
  | cons s rest ih =>
    intro x hx
    by_cases hs : s = St.rest
    · simp only [hcScan, hs, if_pos] at hx
      rcases List.mem_cons.mp hx with h | h
      · omega
      · exact ih prev n x h
    · simp only [hcScan, hs, if_neg, if_false] at hx
      rcases List.mem_cons.mp hx with h | h
      · subst h; split <;> omega
      · have := ih (some s) (if prev ≠ some s then n + 1 else n) x h
        split at this <;> omega

theorem cumsum_true_mem_ge (n : ℕ) (bs : List Bool) :
    ∀ x ∈ cumsum_true n bs, n ≤ x := by
  induction bs generalizing n with
  | nil => intro x hx; simp [cumsum_true] at hx
  | cons b rest ih =>
    intro x hx
    simp only [cumsum_true] at hx
    rcases List.mem_cons.mp hx with h | h
    · subst h; split <;> omega
    · have := ih (if b then n + 1 else n) x h
      split at this <;> omega

theorem cumsum_true_chain (n : ℕ) (bs : List Bool) :
    List.Chain' (· ≤ ·) (cumsum_true n bs) := by
  induction bs generalizing n with
  | nil => simp [cumsum_true]
  | cons b rest ih =>
    simp only [cumsum_true]
    apply List.chain'_cons'.mpr
    refine ⟨?_, ih _⟩
    intro y hy
    have hmem : y ∈ cumsum_true (if b then n + 1 else n) rest :=
      List.mem_of_mem_head? hy
    exact cumsum_true_mem_ge (if b then n + 1 else n) rest y hmem

theorem half_cycles_chain (states : List St) :
    List.Chain' (· ≤ ·) (half_cycles states) :=
  cumsum_true_chain 0 (cycle_change none states)

theorem getLast?_cons_eq (a : α) (l : List α) :
    (a :: l).getLast? = some (l.getLast?.getD a) := by
  induction l generalizing a with
  | nil => rfl
  | cons b t ih => simp [List.getLast?_cons_cons, ih]

theorem hcScan_cons_rest (prev : Option St) (n : ℕ) (rest : List St) :
    hcScan prev n (St.rest :: rest) = n :: hcScan prev n rest := by
  simp [hcScan]

theorem hcScan_cons_nonrest (prev : Option St) (n : ℕ) (s : St) (hs : s ≠ St.rest)
    (rest : List St) :
    hcScan prev n (s :: rest) =
      (if prev ≠ some s then n + 1 else n) ::
        hcScan (some s) (if prev ≠ some s then n + 1 else n) rest := by
  simp [hcScan, hs]

theorem prevValN_zero (n : ℕ) (l : List ℕ) : prevValN n l 0 = n := rfl

theorem prevValN_cons_succ (n v : ℕ) (ts : List ℕ) (i : ℕ) :
    prevValN n (v :: ts) (i + 1) = prevValN v ts i := by
  unfold prevValN
  rw [List.take_succ_cons, getLast?_cons_eq]
  rfl

theorem lastNRo_zero (prev : Option St) (states : List St) :
    lastNRo prev states 0 = prev := rfl

theorem lastNRo_cons_succ_rest (prev : Option St) (rest : List St) (i : ℕ) :
    lastNRo prev (St.rest :: rest) (i + 1) = lastNRo prev rest i := by
  unfold lastNRo
  rw [List.take_succ_cons, List.filter_cons_of_neg (by simp)]

theorem lastNRo_cons_succ_nonrest (prev : Option St) (s : St) (hs : s ≠ St.rest)
    (rest : List St) (i : ℕ) :
    lastNRo prev (s :: rest) (i + 1) = lastNRo (some s) rest i := by
  unfold lastNRo
  rw [List.take_succ_cons, List.filter_cons_of_pos (by simp [hs]), getLast?_cons_eq]
  rcases hlast : ((rest.take i).filter (fun t => decide (t ≠ St.rest))).getLast? with _ | x
  · rfl
  · rfl

theorem lastAssigned_zero (n : ℕ) (hcs : List ℕ) (states : List St) :
    lastAssigned n hcs states 0 = n := rfl

theorem lastAssigned_cons_succ_rest (n v : ℕ) (ts : List ℕ) (rest : List St) (i : ℕ) :
    lastAssigned n (v :: ts) (St.rest :: rest) (i + 1) = lastAssigned n ts rest i := by
  unfold lastAssigned
  rw [List.zip_cons_cons, List.take_succ_cons, List.filter_cons_of_neg (by simp)]

theorem lastAssigned_cons_succ_nonrest (n v : ℕ) (ts : List ℕ) (s : St)
    (hs : s ≠ St.rest) (rest : List St) (i : ℕ) :
    lastAssigned n (v :: ts) (s :: rest) (i + 1) = lastAssigned v ts rest i := by
  unfold lastAssigned
  rw [List.zip_cons_cons, List.take_succ_cons, List.filter_cons_of_pos (by simp [hs]),
    getLast?_cons_eq]
  rcases hlast : (((ts.zip rest).take i).filter (fun p => decide (p.2 ≠ St.rest))).getLast?
    with _ | x
  · rw [hlast]; rfl
  · rw [hlast]; rfl

/-- A rest row's half-cycle value is the one most recently assigned to a
non-rest row (base `n` if none yet). -/
theorem hcScan_rest (prev : Option St) (n : ℕ) (states : List St) (i : ℕ)
    (hi : i < states.length) (hs : states.getD i St.rest = St.rest) :
    (hcScan prev n states).getD i 0 =
      lastAssigned n (hcScan prev n states) states i := by
  induction states generalizing prev n i with
  | nil => simp at hi
  | cons s rest ih =>
    cases i with
    | zero =>
      simp only [List.getD_cons_zero] at hs
      subst hs
      rw [hcScan_cons_rest, List.getD_cons_zero, lastAssigned_zero]
    | succ i =>
      simp only [List.getD_cons_succ] at hs
      simp only [List.length_cons, Nat.succ_lt_succ_iff] at hi
      by_cases h : s = St.rest
      · subst h
        rw [hcScan_cons_rest, List.getD_cons_succ, lastAssigned_cons_succ_rest]
        exact ih prev n i hi hs
      · rw [hcScan_cons_nonrest prev n s h, List.getD_cons_succ,
          lastAssigned_cons_succ_nonrest _ _ _ _ h]
        exact ih (some s) _ i hi hs

/-- A non-rest row's half-cycle value is the previous entry, plus one
exactly when its state differs from the most recent non-rest state
(or when it is the first non-rest row of the scan). -/
theorem hcScan_nonrest (prev : Option St) (n : ℕ) (states : List St) (i : ℕ)
    (hi : i < states.length) (hs : states.getD i St.rest ≠ St.rest) :
    (hcScan prev n states).getD i 0 =
      if lastNRo prev states i = some (states.getD i St.rest)
      then prevValN n (hcScan prev n states) i
      else prevValN n (hcScan prev n states) i + 1 := by
  induction states generalizing prev n i with
  | nil => simp at hi
  | cons s rest ih =>
    cases i with
    | zero =>
      simp only [List.getD_cons_zero] at hs ⊢
      rw [hcScan_cons_nonrest prev n s hs, List.getD_cons_zero, lastNRo_zero,
        prevValN_zero]
      by_cases hp : prev = some s
      · simp [hp]
      · simp [hp]
    | succ i =>
      simp only [List.getD_cons_succ] at hs ⊢
      simp only [List.length_cons, Nat.succ_lt_succ_iff] at hi
      by_cases h : s = St.rest
      · subst h
        rw [hcScan_cons_rest, List.getD_cons_succ, lastNRo_cons_succ_rest,
          prevValN_cons_succ]
        exact ih prev n i hi hs
      · rw [hcScan_cons_nonrest prev n s h, List.getD_cons_succ,
          lastNRo_cons_succ_nonrest prev s h, prevValN_cons_succ]
        exact ih (some s) _ i hi hs

/-- If a non-rest row still carries the base count `n`, the scan's incoming
previous state must already have been that row's state. -/
theorem hcScan_base_val (prev : Option St) (n : ℕ) (states : List St) (i : ℕ)
    (hi : i < states.length) (hs : states.getD i St.rest ≠ St.rest)
    (hv : (hcScan prev n states).getD i 0 = n) :
    prev = some (states.getD i St.rest) := by
  induction states generalizing prev n i with
  | nil => simp at hi
  | cons s rest ih =>
    cases i with
    | zero =>
      simp only [List.getD_cons_zero] at hs hv ⊢
      rw [hcScan_cons_nonrest prev n s hs, List.getD_cons_zero] at hv
      by_cases hp : prev = some s
      · exact hp
      · rw [if_pos hp] at hv
        omega
    | succ i =>
      simp only [List.getD_cons_succ] at hs hv ⊢
      simp only [List.length_cons, Nat.succ_lt_succ_iff] at hi
      by_cases h : s = St.rest
      · subst h
        rw [hcScan_cons_rest, List.getD_cons_succ] at hv
        exact ih prev n i hi hs hv
      · rw [hcScan_cons_nonrest prev n s h, List.getD_cons_succ] at hv
        by_cases hp : prev = some s
        · subst hp
          rw [if_neg (by simp)] at hv
          exact ih (some s) n i hi hs hv
        · rw [if_pos hp] at hv
          exfalso
          have hlen : i < (hcScan (some s) (n + 1) rest).length := by
            rw [hcScan_length]; exact hi
          have hmem : (hcScan (some s) (n + 1) rest).getD i 0 ∈
              hcScan (some s) (n + 1) rest := by
            rw [List.getD_eq_getElem _ _ hlen]
            exact List.getElem_mem hlen
          have := hcScan_ge (some s) (n + 1) rest _ hmem
          omega

/-! ### Generic access lemmas -/

theorem getD_map_range {α : Type} (f : ℕ → α) (n i : ℕ) (d : α) (hi : i < n) :
    ((List.range n).map f).getD i d = f i := by
  rw [List.getD_eq_getElem _ _ (by simpa using hi)]
  simp

theorem getD_map_lt {α β : Type} (f : α → β) (l : List α) (i : ℕ) (d : α) (d2 : β)
    (hi : i < l.length) :
    (l.map f).getD i d2 = f (l.getD i d) := by
  rw [List.getD_eq_getElem _ _ (by simpa using hi), List.getElem_map,
    ← List.getD_eq_getElem _ _ hi]

/-! ### State classifiers (claim C1) -/

theorem arbin_state_rest_iff (x : ℚ) : arbin_state x = St.rest ↔ x = 0 := by
  unfold arbin_state
  split_ifs with h1 h2
  · constructor
    · intro hh; exact absurd hh (by decide)
    · intro hx; subst hx; exact absurd h1 (lt_irrefl 0)
  · constructor
    · intro hh; exact absurd hh (by decide)
    · intro hx; subst hx; exact absurd h2 (lt_irrefl 0)
  · constructor
    · intro _; linarith [not_lt.mp h1, not_lt.mp h2]
    · intro _; rfl

theorem ivium_state_never_rest (x : ℚ) : ivium_state x ≠ St.rest := by
  unfold ivium_state
  split_ifs <;> decide

/-- Claim C1 (corrected): `state = 'R'` iff the classifying value is `0`
holds for the sign classifiers shared by the Arbin, Biologic and Land
paths; the Ivium classifier instead never returns `'R'` and maps values
`≥ 0` (including `0`) to state `0`, `< 0` to state `1`; the Neware path
classifies by the `Status` string, with `'R'` exactly on `"Rest"` rows,
independent of the current. -/
theorem C1_theorem :
    (∀ x : ℚ, (arbin_state x = St.rest ↔ x = 0) ∧ (bio_state x = St.rest ↔ x = 0) ∧
      (land_state x = St.rest ↔ x = 0)) ∧
    (∀ x : ℚ, ivium_state x ≠ St.rest ∧ (ivium_state x = St.s0 ↔ 0 ≤ x) ∧
      (ivium_state x = St.s1 ↔ x < 0)) ∧
    (∀ s : String, neware_state s = NwSt.rest ↔ s = "Rest") := by
  refine ⟨fun x => ⟨arbin_state_rest_iff x, arbin_state_rest_iff x, arbin_state_rest_iff x⟩,
    fun x => ⟨ivium_state_never_rest x, ?_, ?_⟩, fun s => ?_⟩
  · unfold ivium_state
    split_ifs with h
    · simpa using h
    · constructor
      · intro hh; exact absurd hh (by decide)
      · intro hx; exact absurd hx h
  · unfold ivium_state
    split_ifs with h
    · constructor
      · intro hh; exact absurd hh (by decide)
      · intro hx; exact absurd hx (not_lt.mpr h)
    · simpa using lt_of_not_ge h
  · unfold neware_state
    split_ifs with h1 h2 h3
    · simp [h1]
    · simp [h1, h2]
    · simp [h1, h3]
    · simp [h1]

/-- Claim C1 counterexample: in the Ivium loader path a sample whose
classifying current is exactly `0` gets state `0` (a charge/discharge
label), not Rest — refuting both directions of the claimed equivalence
for that path. -/
theorem C1_counterexample :
    ivium_state 0 = St.s0 ∧ St.s0 ≠ St.rest := by
  constructor
  · unfold ivium_state
    rw [if_pos le_rfl]
  · decide

/-! ### Arbin capacity columns (claim C4) -/

/-- Claim C4 (code bug): in the `(Ah)` branch of `arbin_res` the
conversion to mAh multiplies only the charge counter by 1000 (operator
precedence), so with `Discharge_Capacity(Ah) = 2` and
`Charge_Capacity(Ah) = 3` the code yields `2 + 3·1000 = 3002`, not the
documented `(2 + 3)·1000 = 5000` that the sibling `arbin_excel`
computes. -/
theorem C4_theorem :
    arbin_res_capacity (ArbinCapacityCols.inAh [2] [3]) = .ok [3002] ∧
    arbin_excel_capacity [2] [3] = [5000] ∧
    ((2 : ℚ) + 3) * 1000 ≠ 3002 := by
  refine ⟨?_, ?_, by norm_num⟩
  · show Except.ok [(2 : ℚ) + 3 * 1000] = Except.ok [3002]
    norm_num
  · show [((2 : ℚ) + 3) * 1000] = [5000]
    norm_num

/-! ### Missing charge signal (claim C9) -/

/-- Claim C9 (corrected): with no recognised capacity columns the Arbin
`.res` path does fail (KeyError), but the Biologic path does not — its
unhandled-layout branch prints a warning and returns the table without
a `Capacity` column, i.e. partial output. For every layout the Biologic
capacity step returns normally, produces a `Capacity` column exactly
when a charge signal is recognised, and warns exactly when none is. -/
theorem C9_theorem :
    (arbin_res_capacity ArbinCapacityCols.missing).isOk = false ∧
    (∀ (hcs : List ℕ) (cols : BioChargeCols),
      ∃ r : BioResult, biologic_capacity hcs cols = .ok r ∧
        (r.capacity = none ↔ cols = BioChargeCols.missing) ∧
        (r.warned = true ↔ cols = BioChargeCols.missing)) := by
  refine ⟨rfl, fun hcs cols => ?_⟩
  cases cols with
  | qTotal q => exact ⟨_, rfl, by simp [biologic_capacity], by simp [biologic_capacity]⟩
  | dqCol d => exact ⟨_, rfl, by simp [biologic_capacity], by simp [biologic_capacity]⟩
  | qqo q => exact ⟨_, rfl, by simp [biologic_capacity], by simp [biologic_capacity]⟩
  | missing => exact ⟨_, rfl, by simp [biologic_capacity], by simp [biologic_capacity]⟩

/-- Claim C9 counterexample: a Biologic table with no recognised charge
signal is processed successfully (`.ok`, no `SchemaMismatch`), yielding
a table that lacks the `Capacity` column — partial output where the
claim requires an immediately fatal failure. -/
theorem C9_counterexample :
    biologic_capacity [0] BioChargeCols.missing = .ok ⟨none, true⟩ ∧
    (biologic_capacity [0] BioChargeCols.missing).isOk = true :=
  ⟨rfl, rfl⟩

/-! ### cycle_summary frame effect (claim C10) -/

/-- Claim C10 (corrected): `cycle_summary` does not leave the input
table unchanged: it overwrites the `full cycle` column in place with
`ceil(half cycle / 2)`. All other columns are unchanged, and a table
whose `full cycle` column already satisfies that relation (as every
loader output does) is unchanged as a whole. -/
theorem C10_theorem (t : EchemTable) :
    (cycle_summary_table t).halfCycle = t.halfCycle ∧
    (cycle_summary_table t).current = t.current ∧
    (cycle_summary_table t).voltage = t.voltage ∧
    (cycle_summary_table t).capacity = t.capacity ∧
    (cycle_summary_table t).state = t.state ∧
    (cycle_summary_table t).fullCycle = echem_full_cycle_col t.halfCycle ∧
    (t.fullCycle = echem_full_cycle_col t.halfCycle → cycle_summary_table t = t) := by
  refine ⟨rfl, rfl, rfl, rfl, rfl, rfl, fun h => ?_⟩
  cases t with
  | mk hc fc cur vol cap st =>
    simp only [echem_full_cycle_col] at h
    simp [cycle_summary_table, h]

/-- Witness for C10 on a table whose `full cycle` column already equals
`ceil(half cycle / 2)`: `cycle_summary` leaves it unchanged. -/
theorem C10_witness :
    cycle_summary_table ⟨[3], [2], [], [], [], []⟩ = ⟨[3], [2], [], [], [], []⟩ :=
  (C10_theorem ⟨[3], [2], [], [], [], []⟩).2.2.2.2.2.2 (by
    show [(2 : ℚ)] = [np_ceil ((3 : ℚ) / 2)]
    rw [np_ceil, show ⌈(3 : ℚ) / 2⌉ = (2 : ℤ) from by norm_num [Int.ceil_eq_iff]]
    norm_num)

/-- Claim C10 counterexample: on an input table with `half cycle = [3]`
and `full cycle = [5]`, `cycle_summary` rewrites the `full cycle` cell
to `2`, mutating the input. -/
theorem C10_counterexample :
    (cycle_summary_table ⟨[3], [5], [], [], [], []⟩).fullCycle = [2] ∧
    (⟨[3], [5], [], [], [], []⟩ : EchemTable).fullCycle = [5] ∧
    ([2] : List ℚ) ≠ [5] := by
  refine ⟨?_, rfl, by norm_num⟩
  show [np_ceil ((3 : ℚ) / 2)] = [2]
  rw [np_ceil, show ⌈(3 : ℚ) / 2⌉ = (2 : ℤ) from by norm_num [Int.ceil_eq_iff]]
  norm_num

/-! ### Full-cycle column (claim C6) -/

/-- Claim C6 (confirmed): every table returned by `echem_file_loader`
gets `full cycle = ceil(half cycle / 2)` (lines 156-157 recompute it for
every branch, all of which emit a `half cycle` column), and
`cycle_summary` recomputes the same relation on its input (line 581). -/
theorem C6_theorem :
    (∀ (hcs : List ℚ) (i : ℕ), i < hcs.length →
      (echem_full_cycle_col hcs).getD i 0 = np_ceil (hcs.getD i 0 / 2)) ∧
    (∀ (t : EchemTable) (i : ℕ), i < t.halfCycle.length →
      (cycle_summary_table t).fullCycle.getD i 0 = np_ceil (t.halfCycle.getD i 0 / 2)) := by
  constructor
  · intro hcs i hi
    exact getD_map_lt _ hcs i 0 0 hi
  · intro t i hi
    exact getD_map_lt _ t.halfCycle i 0 0 hi

/-- Witness for C6 at `half cycle = [3]`, position 0: the full-cycle
cell is `⌈3/2⌉ = 2` in both the loader column and the aggregator's. -/
theorem C6_witness :
    (echem_full_cycle_col [3]).getD 0 0 = np_ceil ((3 : ℚ) / 2) ∧
    (cycle_summary_table ⟨[3], [], [], [], [], []⟩).fullCycle.getD 0 0 =
      np_ceil ((3 : ℚ) / 2) :=
  ⟨C6_theorem.1 [3] 0 (by norm_num),
   C6_theorem.2 ⟨[3], [], [], [], [], []⟩ 0 (by norm_num)⟩

/-! ### Half-cycle segmentation (claim C2) -/

theorem cycle_change_eq_all_of_no_rest (prev : Option St) (states : List St)
    (h : ∀ s ∈ states, s ≠ St.rest) :
    cycle_change prev states = cycle_change_all prev states := by
  induction states generalizing prev with
  | nil => rfl
  | cons s rest ih =>
    have hs : s ≠ St.rest := h s (List.mem_cons_self s rest)
    simp only [cycle_change, cycle_change_all, if_neg hs]
    rw [ih (some s) (fun t ht => h t (List.mem_cons_of_mem s ht))]

/-- Claim C2 (corrected, positive part): for the shared segmenter used
by every loader path except Neware, the half-cycle column has the length
of the table, is non-decreasing, a non-rest row's value is the previous
entry plus one exactly when its state differs from the most recent
non-rest state (or it is the first non-rest row), a rest row carries the
value most recently assigned to a non-rest row (0 if none yet); and the
Ivium column, computed without the rest restriction, coincides with the
shared segmenter because Ivium states are never Rest. -/
theorem C2_theorem :
    (∀ states : List St,
      (half_cycles states).length = states.length ∧
      List.Chain' (fun a b => a ≤ b) (half_cycles states) ∧
      ∀ i, i < states.length →
        (states.getD i St.rest = St.rest →
          (half_cycles states).getD i 0 =
            lastAssigned 0 (half_cycles states) states i) ∧
        (states.getD i St.rest ≠ St.rest →
          (half_cycles states).getD i 0 =
            if lastNRo none states i = some (states.getD i St.rest)
            then prevValN 0 (half_cycles states) i
            else prevValN 0 (half_cycles states) i + 1)) ∧
    (∀ currents : List ℚ, ivium_half_cycles currents = half_cycles (ivium_states currents)) := by
  constructor
  · intro states
    have he : half_cycles states = hcScan none 0 states :=
      half_cycles_eq_hcScan none 0 states
    refine ⟨half_cycles_length states, half_cycles_chain states, fun i hi => ⟨?_, ?_⟩⟩
    · intro hrest
      rw [he]
      exact hcScan_rest none 0 states i hi hrest
    · intro hnr
      rw [he]
      exact hcScan_nonrest none 0 states i hi hnr
  · intro currents
    have hnr : ∀ s ∈ ivium_states currents, s ≠ St.rest := by
      intro s hs
      obtain ⟨x, _, rfl⟩ := List.mem_map.mp hs
      exact ivium_state_never_rest x
    unfold ivium_half_cycles ivium_half_cycles_of_states half_cycles
    rw [cycle_change_eq_all_of_no_rest none _ hnr]

/-- Witness for C2 on the spec's scenario (b): current signs
`[−,−,0,0,+,+]`, states `[1,1,R,R,0,0]`, half cycles `[1,1,1,1,2,2]`:
the rest row at index 2 carries the last assigned value and the non-rest
row at index 4 increments on a state change. -/
theorem C2_witness :
    half_cycles [St.s1, St.s1, St.rest, St.rest, St.s0, St.s0] = [1, 1, 1, 1, 2, 2] ∧
    (half_cycles [St.s1, St.s1, St.rest, St.rest, St.s0, St.s0]).getD 2 0 =
      lastAssigned 0 (half_cycles [St.s1, St.s1, St.rest, St.rest, St.s0, St.s0])
        [St.s1, St.s1, St.rest, St.rest, St.s0, St.s0] 2 ∧
    (half_cycles [St.s1, St.s1, St.rest, St.rest, St.s0, St.s0]).getD 4 0 =
      prevValN 0 (half_cycles [St.s1, St.s1, St.rest, St.rest, St.s0, St.s0]) 4 + 1 := by
  refine ⟨by decide, ((C2_theorem.1 _).2.2 2 (by decide)).1 (by decide), ?_⟩
  have h4 := ((C2_theorem.1 [St.s1, St.s1, St.rest, St.rest, St.s0, St.s0]).2.2 4
    (by decide)).2 (by decide)
  rw [h4, if_neg (by decide)]

/-- Claim C2 counterexample: the Neware loader path copies the vendor
`Cycle` column verbatim into `half cycle` (line 502), so a stream of two
non-rest charge rows with vendor cycles `[2, 1]` produces a strictly
decreasing half-cycle sequence, violating the claimed monotone,
transition-counting behaviour. -/
theorem C2_counterexample :
    neware_half_cycles [⟨"CC_Chg", 2⟩, ⟨"CC_Chg", 1⟩] = [2, 1] ∧
    neware_states [⟨"CC_Chg", 2⟩, ⟨"CC_Chg", 1⟩] = [NwSt.chg, NwSt.chg] ∧
    ¬ List.Chain' (fun a b => a ≤ b) (neware_half_cycles [⟨"CC_Chg", 2⟩, ⟨"CC_Chg", 1⟩]) := by
  refine ⟨rfl, ?_, ?_⟩
  · show [neware_state "CC_Chg", neware_state "CC_Chg"] = [NwSt.chg, NwSt.chg]
    have : neware_state "CC_Chg" = NwSt.chg := by
      unfold neware_state
      rw [if_neg (by decide), if_pos rfl]
    rw [this]
  · show ¬ List.Chain' (fun a b => a ≤ b) [(2 : ℤ), 1]
    intro h
    have := List.chain'_cons.mp h
    omega

/-! ### Per-half-cycle baselines (claim C3) -/

theorem half_cycles_nonrest_ne_zero (states : List St) (i : ℕ)
    (hi : i < states.length) (hnr : states.getD i St.rest ≠ St.rest) :
    (half_cycles states).getD i 0 ≠ 0 := by
  intro h0
  have he : half_cycles states = hcScan none 0 states :=
    half_cycles_eq_hcScan none 0 states
  rw [he] at h0
  have := hcScan_base_val none 0 states i hi hnr h0
  exact Option.noConfusion this

/-- In the segmenter's output, every row of a half-cycle that precedes
that half-cycle's first non-rest row belongs to a different half-cycle:
a half-cycle with a non-rest row starts at a non-rest row. -/
theorem half_cycles_min_idx (states : List St) (h j : ℕ)
    (hfirst : isFirstNonRestOf (half_cycles states) states h j) :
    ∀ k, k < j → (half_cycles states).getD k 0 ≠ h := by
  obtain ⟨hj, hjh, hjnr, hmin⟩ := hfirst
  intro k hk hEq
  have hklen : k < states.length := lt_trans hk hj
  have hkrest : states.getD k St.rest = St.rest := by
    by_contra hkr
    exact hmin k hk ⟨hEq, hkr⟩
  have hcarry : (half_cycles states).getD k 0 =
      lastAssigned 0 (half_cycles states) states k := by
    have he : half_cycles states = hcScan none 0 states :=
      half_cycles_eq_hcScan none 0 states
    rw [he]
    exact hcScan_rest none 0 states k hklen hkrest
  rw [hEq] at hcarry
  unfold lastAssigned at hcarry
  rcases hlast : ((((half_cycles states).zip states).take k).filter
      (fun p => decide (p.2 ≠ St.rest))).getLast? with _ | q
  · rw [hlast] at hcarry
    simp only [Option.map_none', Option.getD_none] at hcarry
    have hne := half_cycles_nonrest_ne_zero states j hj hjnr
    rw [hjh] at hne
    exact hne hcarry
  · rw [hlast] at hcarry
    simp only [Option.map_some', Option.getD_some] at hcarry
    have hqmem := List.mem_of_getLast?_eq_some hlast
    obtain ⟨hm_take, hq2⟩ := List.mem_filter.mp hqmem
    have hq2' : q.2 ≠ St.rest := of_decide_eq_true hq2
    obtain ⟨m, hm, hqm⟩ := List.mem_iff_getElem.mp hm_take
    rw [List.getElem_take] at hqm
    rw [List.length_take, List.length_zip, half_cycles_length] at hm
    have hmk : m < k := lt_of_lt_of_le hm (min_le_left _ _)
    have hmlen : m < states.length := by
      have := lt_of_lt_of_le hm (min_le_right _ _)
      simpa using this
    rw [List.getElem_zip] at hqm
    have h1 : (half_cycles states).getD m 0 = q.1 := by
      rw [List.getD_eq_getElem _ _ (by rw [half_cycles_length]; exact hmlen), ← hqm]
    have h2 : states.getD m St.rest = q.2 := by
      rw [List.getD_eq_getElem _ _ hmlen, ← hqm]
    refine hmin m (lt_trans hmk hk) ⟨?_, ?_⟩
    · rw [h1, ← hcarry]
    · rw [h2]; exact hq2'

theorem firstIdxOfCycle_eq (hcs : List ℕ) (h j : ℕ) (hj : j < hcs.length)
    (hjh : hcs.getD j 0 = h) (hmin : ∀ k, k < j → hcs.getD k 0 ≠ h) :
    firstIdxOfCycle hcs h = j := by
  unfold firstIdxOfCycle
  rw [List.findIdx_eq hj]
  constructor
  · have e1 : hcs[j] = h := by rw [← hjh, List.getD_eq_getElem _ _ hj]
    simp [e1]
  · intro k hk
    have hk1 : k < hcs.length := lt_trans hk hj
    have hne := hmin k hk
    rw [List.getD_eq_getElem _ _ hk1] at hne
    simp [hne]

theorem firstNonRestIdx_eq (hcs : List ℕ) (states : List St) (h j : ℕ)
    (hlen : hcs.length = states.length)
    (hfirst : isFirstNonRestOf hcs states h j) :
    firstNonRestIdx hcs states h = j := by
  obtain ⟨hj, hjh, hjnr, hmin⟩ := hfirst
  have hj' : j < hcs.length := by rw [hlen]; exact hj
  have hjz : j < (hcs.zip states).length := by
    rw [List.length_zip, hlen]
    simpa using hj
  unfold firstNonRestIdx
  rw [List.findIdx_eq hjz]
  constructor
  · rw [List.getElem_zip]
    have e1 : hcs[j] = h := by rw [← hjh, List.getD_eq_getElem _ _ hj']
    rw [List.getD_eq_getElem _ _ hj] at hjnr
    simp [e1, hjnr]
  · intro k hk
    have hk1 : k < hcs.length := lt_trans hk hj'
    have hk2 : k < states.length := by rw [← hlen]; exact hk1
    have hne := hmin k hk
    rw [List.getElem_zip]
    by_cases he : hcs[k] = h
    · have hr : states[k] = St.rest := by
        by_contra hrr
        apply hne
        constructor
        · rw [List.getD_eq_getElem _ _ hk1]; exact he
        · rw [List.getD_eq_getElem _ _ hk2]; exact hrr
      simp [hr]
    · simp [he]

theorem hasNonRest_true (hcs : List ℕ) (states : List St) (h j : ℕ)
    (hlen : hcs.length = states.length)
    (hfirst : isFirstNonRestOf hcs states h j) :
    hasNonRest hcs states h = true := by
  obtain ⟨hj, hjh, hjnr, _⟩ := hfirst
  have hj' : j < hcs.length := by rw [hlen]; exact hj
  have hjz : j < (hcs.zip states).length := by
    rw [List.length_zip, hlen]
    simpa using hj
  unfold hasNonRest
  rw [List.any_eq_true]
  refine ⟨(hcs.zip states)[j], List.getElem_mem hjz, ?_⟩
  rw [List.getElem_zip]
  have e1 : hcs[j] = h := by rw [← hjh, List.getD_eq_getElem _ _ hj']
  rw [List.getD_eq_getElem _ _ hj] at hjnr
  simp [e1, hjnr]

/-- Claim C3 (confirmed): in Mode A (the `arbin_res`/`arbin_excel`
subtraction loop) and Mode C (the Biologic `(Q-Qo)/C` branch), for every
half-cycle that has a non-rest row, the baseline subtracted from every
row of the half-cycle — rest rows included — is the pre-reset value at
that half-cycle's first non-rest row. In Mode C the code subtracts the
half-cycle's first row, which coincides with its first non-rest row
because, in the segmenter's output, a half-cycle containing a non-rest
row starts at one. -/
theorem C3_theorem :
    (∀ (states : List St) (caps : List ℚ) (i j : ℕ),
      caps.length = states.length → i < caps.length →
      isFirstNonRestOf (half_cycles states) states ((half_cycles states).getD i 0) j →
      (subtractInitialCapacity (half_cycles states) states caps).getD i 0 =
        caps.getD i 0 - caps.getD j 0) ∧
    (∀ (states : List St) (raw : List ℚ) (i j : ℕ),
      raw.length = states.length → i < raw.length →
      isFirstNonRestOf (half_cycles states) states ((half_cycles states).getD i 0) j →
      (subtractFirstOfCycle (half_cycles states) raw).getD i 0 =
        raw.getD i 0 - raw.getD j 0) := by
  constructor
  · intro states caps i j _ hi hfirst
    unfold subtractInitialCapacity
    rw [getD_map_range _ _ _ _ hi]
    rw [if_pos (hasNonRest_true _ _ _ j (half_cycles_length states) hfirst)]
    rw [firstNonRestIdx_eq _ _ _ j (half_cycles_length states) hfirst]
  · intro states raw i j _ hi hfirst
    have hj : j < states.length := hfirst.1
    have hjh : (half_cycles states).getD j 0 = (half_cycles states).getD i 0 :=
      hfirst.2.1
    unfold subtractFirstOfCycle
    rw [getD_map_range _ _ _ _ hi]
    rw [firstIdxOfCycle_eq (half_cycles states) _ j
      (by rw [half_cycles_length]; exact hj) hjh
      (half_cycles_min_idx states _ j hfirst)]

/-- Witness for C3: states `[R, 0, 0, R]`, half cycles `[0, 1, 1, 1]`,
pre-reset capacities `[5, 7, 9, 11]`; the rest row at index 3 belongs to
half-cycle 1 whose first non-rest row is index 1, so both normalisation
modes give it capacity `11 − 7`. -/
theorem C3_witness :
    (subtractInitialCapacity (half_cycles [St.rest, St.s0, St.s0, St.rest])
      [St.rest, St.s0, St.s0, St.rest] [5, 7, 9, 11]).getD 3 0 = 11 - 7 ∧
    (subtractFirstOfCycle (half_cycles [St.rest, St.s0, St.s0, St.rest])
      [5, 7, 9, 11]).getD 3 0 = 11 - 7 :=
  ⟨C3_theorem.1 [St.rest, St.s0, St.s0, St.rest] [5, 7, 9, 11] 3 1 (by decide)
      (by decide) (by decide),
   C3_theorem.2 [St.rest, St.s0, St.s0, St.rest] [5, 7, 9, 11] 3 1 (by decide)
      (by decide) (by decide)⟩

/-! ### Ivium Mode B capacity (claim C5) -/

theorem cumsum_true_length (n : ℕ) (bs : List Bool) :
    (cumsum_true n bs).length = bs.length := by
  induction bs generalizing n with
  | nil => rfl
  | cons b rest ih => simp [cumsum_true, ih]

theorem cycle_change_all_length (prev : Option St) (states : List St) :
    (cycle_change_all prev states).length = states.length := by
  induction states generalizing prev with
  | nil => rfl
  | cons s rest ih => simp [cycle_change_all, ih]

theorem ivium_half_cycles_length (currents : List ℚ) :
    (ivium_half_cycles currents).length = currents.length := by
  unfold ivium_half_cycles ivium_half_cycles_of_states
  rw [cumsum_true_length, cycle_change_all_length]
  simp [ivium_states]

theorem chain'_le_getD_mono (l : List ℕ)
    (hc : List.Chain' (fun a b => a ≤ b) l) :
    ∀ j i : ℕ, i ≤ j → j < l.length → l.getD i 0 ≤ l.getD j 0 := by
  intro j
  induction j with
  | zero =>
    intro i hij _
    rw [Nat.le_zero.mp hij]
  | succ m ih =>
    intro i hij hj
    rcases Nat.lt_or_ge i (m + 1) with h | h
    · have him : i ≤ m := Nat.lt_succ_iff.mp h
      have hm : m < l.length := lt_trans (Nat.lt_succ_self m) hj
      refine le_trans (ih i him hm) ?_
      have hstep := List.chain'_iff_get.mp hc m (by omega)
      rw [List.getD_eq_getElem _ _ hm, List.getD_eq_getElem _ _ hj]
      simpa [List.get_eq_getElem] using hstep
    · rw [le_antisymm hij h]

theorem getD_zipWith {α β γ : Type} (f : α → β → γ) (as : List α) (bs : List β)
    (i : ℕ) (da : α) (db : β) (dc : γ) (ha : i < as.length) (hb : i < bs.length) :
    (List.zipWith f as bs).getD i dc = f (as.getD i da) (bs.getD i db) := by
  rw [List.getD_eq_getElem _ _ (by rw [List.length_zipWith]; omega),
    List.getElem_zipWith, List.getD_eq_getElem _ _ ha, List.getD_eq_getElem _ _ hb]

theorem diff_prepend_zero_getD (l : List ℚ) (i : ℕ) (hi : i < l.length) :
    (diff_prepend_zero l).getD i 0 = amended_ivium_dt l i := by
  unfold diff_prepend_zero amended_ivium_dt
  rw [getD_map_range _ _ _ _ hi]
  by_cases h : i = 0 <;> simp [h]

/-- For a non-decreasing half-cycle column, the rows of row `i`'s
half-cycle that lie at or before `i` are exactly the contiguous block
from the half-cycle's first row up to `i`. -/
theorem filter_range_eq_Icc (hcs : List ℕ)
    (hchain : List.Chain' (fun a b => a ≤ b) hcs) (i : ℕ) (hi : i < hcs.length) :
    (Finset.range (i + 1)).filter (fun j => hcs.getD j 0 = hcs.getD i 0) =
      Finset.Icc (firstIdxOfCycle hcs (hcs.getD i 0)) i := by
  unfold firstIdxOfCycle
  have hgetD : hcs[i] = hcs.getD i 0 := (List.getD_eq_getElem _ _ hi).symm
  have hex : ∃ x ∈ hcs, (fun x => x == hcs.getD i 0) x := by
    refine ⟨hcs[i], List.getElem_mem hi, ?_⟩
    simp [hgetD]
  have hflt : hcs.findIdx (fun x => x == hcs.getD i 0) < hcs.length :=
    List.findIdx_lt_length_of_exists hex
  have hfval : hcs.getD (hcs.findIdx (fun x => x == hcs.getD i 0)) 0 = hcs.getD i 0 := by
    have hp := @List.findIdx_getElem _ (fun x => x == hcs.getD i 0) hcs hflt
    rw [List.getD_eq_getElem _ _ hflt]
    simpa using hp
  have hfle : hcs.findIdx (fun x => x == hcs.getD i 0) ≤ i := by
    by_contra hgt
    push_neg at hgt
    have hfalse := List.not_of_lt_findIdx hgt
    rw [hgetD] at hfalse
    simp at hfalse
  ext j
  simp only [Finset.mem_filter, Finset.mem_range, Finset.mem_Icc, Nat.lt_succ_iff]
  constructor
  · rintro ⟨hji, hEq⟩
    refine ⟨?_, hji⟩
    by_contra hgt
    push_neg at hgt
    have hfalse := List.not_of_lt_findIdx hgt
    rw [show hcs[j] = hcs.getD j 0 from
      (List.getD_eq_getElem _ _ (lt_of_le_of_lt hji hi)).symm, hEq] at hfalse
    simp at hfalse
  · rintro ⟨h1, h2⟩
    refine ⟨h2, ?_⟩
    have hle1 := chain'_le_getD_mono hcs hchain j
      (hcs.findIdx (fun x => x == hcs.getD i 0)) h1 (lt_of_le_of_lt h2 hi)
    have hle2 := chain'_le_getD_mono hcs hchain i j h2 hi
    rw [hfval] at hle1
    exact le_antisymm hle2 hle1

/-- Claim C5 (corrected): the Ivium capacity equals the claimed Mode B
formula with the single amendment `dt[0] = time[0] − 0` (`np.diff` with
`prepend=0`) in place of the claimed `dt[0] := 0`: per half-cycle, the
capacity is the running sum of `|current·dt/3600|` restarted at the
half-cycle's first sample. -/
theorem C5_theorem (times currents : List ℚ) (hlen : times.length = currents.length) :
    ivium_capacity times currents = amended_ivium_capacity times currents := by
  have hhl : (ivium_half_cycles currents).length = currents.length :=
    ivium_half_cycles_length currents
  have hdl : (diff_prepend_zero times).length = times.length := by
    simp [diff_prepend_zero]
  have hdql : (ivium_dq times currents).length = currents.length := by
    unfold ivium_dq
    rw [List.length_zipWith, hdl, hlen, min_self]
  have hchain : List.Chain' (fun a b => a ≤ b) (ivium_half_cycles currents) :=
    cumsum_true_chain 0 (cycle_change_all none (ivium_states currents))
  have hmaskl : (masked_abs_cumsum (ivium_half_cycles currents)
      (ivium_dq times currents)).length = currents.length := by
    simp [masked_abs_cumsum, hdql]
  apply List.ext_getElem
  · simp [ivium_capacity, amended_ivium_capacity, masked_abs_cumsum, hdql]
  · intro i hL hR
    have hi : i < currents.length := by
      simpa [amended_ivium_capacity] using hR
    have hL' : i < ((masked_abs_cumsum (ivium_half_cycles currents)
        (ivium_dq times currents)).map (fun x => x / 3600)).length := by
      simpa [ivium_capacity] using hL
    have key : (ivium_capacity times currents).getD i 0 =
        (amended_ivium_capacity times currents).getD i 0 := by
      unfold ivium_capacity amended_ivium_capacity
      rw [getD_map_lt _ _ i 0 0 (by rw [hmaskl]; exact hi)]
      unfold masked_abs_cumsum
      rw [getD_map_range _ _ _ _ (by rw [hdql]; exact hi)]
      rw [getD_map_range _ _ _ _ hi]
      rw [filter_range_eq_Icc (ivium_half_cycles currents) hchain i
        (by rw [hhl]; exact hi)]
      rw [Finset.sum_div]
      refine Finset.sum_congr rfl ?_
      intro j hj
      rw [Finset.mem_Icc] at hj
      have hjc : j < currents.length := lt_of_le_of_lt hj.2 hi
      have hjt : j < times.length := by rw [hlen]; exact hjc
      have hdq : (ivium_dq times currents).getD j 0 =
          amended_ivium_dt times j * currents.getD j 0 := by
        unfold ivium_dq
        rw [getD_zipWith _ _ _ j 0 0 0 (by rw [hdl]; exact hjt) hjc]
        rw [diff_prepend_zero_getD times j hjt]
      rw [hdq, abs_div, abs_of_pos (by norm_num : (0 : ℚ) < 3600),
        mul_comm (currents.getD j 0) (amended_ivium_dt times j)]
    calc (ivium_capacity times currents)[i]
        = (ivium_capacity times currents).getD i 0 :=
          (List.getD_eq_getElem _ _ hL).symm
      _ = (amended_ivium_capacity times currents).getD i 0 := key
      _ = (amended_ivium_capacity times currents)[i] :=
          List.getD_eq_getElem _ _ hR

/-- Claim C5 counterexample: for the one-sample Ivium table with
`time = [10]`, `current = [1]`, the code's first time step is
`10 − 0 = 10`, so the capacity is `10/3600`, while the claim's
`dt[0] := 0` forces capacity `0`. -/
theorem C5_counterexample :
    ivium_capacity [10] [1] = [10 / 3600] ∧
    spec_ivium_capacity [10] [1] = [0] ∧
    (10 / 3600 : ℚ) ≠ 0 := by
  refine ⟨?_, ?_, by norm_num⟩
  · norm_num [ivium_capacity, masked_abs_cumsum, ivium_dq, diff_prepend_zero,
      List.range_succ, Finset.sum_filter, Finset.sum_range_succ]
  · norm_num [spec_ivium_capacity, spec_ivium_dt, ivium_half_cycles,
      ivium_half_cycles_of_states, ivium_states, ivium_state, cycle_change_all,
      cumsum_true, firstIdxOfCycle, List.findIdx_cons, List.range_succ,
      Finset.Icc_self, Finset.sum_singleton]

/-- Witness for C5 at `time = [10]`, `current = [1]`: the code equals
the amended formula, whose value there is `10/3600`. -/
theorem C5_witness :
    ivium_capacity [10] [1] = amended_ivium_capacity [10] [1] :=
  C5_theorem [10] [1] rfl

/-! ### Differential-capacity pipeline (claims C7, C8) -/

theorem isOk_error {ε α : Type} (e : ε) : (Except.error e : Except ε α).isOk = false := rfl

theorem isOk_ok {ε α : Type} (v : α) : (Except.ok v : Except ε α).isOk = true := rfl

theorem savgol_filter_isOk (core : List ℚ → ℕ → ℕ → List ℚ) (xs : List ℚ)
    (w p : ℕ) :
    (savgol_filter core xs w p).isOk = true ↔
      (w % 2 ≠ 0 ∧ w ≤ xs.length ∧ p < w) := by
  unfold savgol_filter
  split_ifs with h1 h2 h3
  · simp only [isOk_error, Bool.false_eq_true, false_iff]
    rintro ⟨hc, -, -⟩
    exact hc h1
  · simp only [isOk_error, Bool.false_eq_true, false_iff]
    rintro ⟨-, hle, -⟩
    omega
  · simp only [isOk_error, Bool.false_eq_true, false_iff]
    rintro ⟨-, -, hlt⟩
    omega
  · simp only [isOk_ok, true_iff]
    exact ⟨h1, by omega, by omega⟩

theorem savgol_filter_ok_of (core : List ℚ → ℕ → ℕ → List ℚ) (xs : List ℚ)
    (w p : ℕ) (h1 : w % 2 ≠ 0) (h2 : w ≤ xs.length) (h3 : p < w) :
    savgol_filter core xs w p = .ok (core xs w p) := by
  unfold savgol_filter
  rw [if_neg h1, if_neg (by omega), if_neg (by omega)]

theorem savgol_filter_ok_shape (core : List ℚ → ℕ → ℕ → List ℚ) (xs : List ℚ)
    (w p : ℕ) (r : List ℚ) (h : savgol_filter core xs w p = .ok r) :
    r = core xs w p := by
  unfold savgol_filter at h
  split_ifs at h
  injection h with h
  exact h.symm

theorem linspace_length (a b : ℚ) (num : ℕ) : (linspace a b num).length = num := by
  unfold linspace
  rw [List.length_map, List.length_range]

theorem linspace_getD (a b : ℚ) (num i : ℕ) (hi : i < num) :
    (linspace a b num).getD i 0 = a + (b - a) * i / ((num : ℚ) - 1) := by
  unfold linspace
  rw [getD_map_range (fun j : ℕ => a + (b - a) * j / ((num : ℚ) - 1)) num i 0 hi]

theorem linspace_pairwise (a b : ℚ) (num : ℕ) (hab : a < b) (h2 : 2 ≤ num) :
    List.Pairwise (fun x y => x < y) (linspace a b num) := by
  have hden : (0 : ℚ) < (num : ℚ) - 1 := by
    have : (2 : ℚ) ≤ (num : ℚ) := by exact_mod_cast h2
    linarith
  unfold linspace
  rw [List.pairwise_map]
  apply List.Pairwise.imp ?_ (List.pairwise_lt_range num)
  intro i j hij
  have hcast : (i : ℚ) < (j : ℚ) := by exact_mod_cast hij
  have hmul : (b - a) * (i : ℚ) < (b - a) * (j : ℚ) :=
    mul_lt_mul_of_pos_left hcast (by linarith)
  have hdiv := (div_lt_div_iff_of_pos_right hden).mpr hmul
  linarith

theorem linspace_first (a b : ℚ) (num : ℕ) (h : 0 < num) :
    (linspace a b num).getD 0 0 = a := by
  rw [linspace_getD a b num 0 h]
  norm_num

theorem linspace_last (a b : ℚ) (num : ℕ) (h2 : 2 ≤ num) :
    (linspace a b num).getD (num - 1) 0 = b := by
  rw [linspace_getD a b num (num - 1) (by omega)]
  have hc : ((num - 1 : ℕ) : ℚ) = (num : ℚ) - 1 := by
    have h1 : (1 : ℕ) ≤ num := by omega
    simpa using (Nat.cast_sub h1 : ((num - 1 : ℕ) : ℚ) = (num : ℚ) - (1 : ℕ))
  have hne : (num : ℚ) - 1 ≠ 0 := by
    have : (2 : ℚ) ≤ (num : ℚ) := by exact_mod_cast h2
    linarith
  rw [hc, mul_div_assoc, div_self hne, mul_one]
  ring

theorem foldl_min_le (xs : List ℚ) : ∀ init : ℚ,
    xs.foldl min init ≤ init ∧ ∀ a ∈ xs, xs.foldl min init ≤ a := by
  induction xs with
  | nil => intro init; exact ⟨le_rfl, by simp⟩
  | cons x t ih =>
    intro init
    constructor
    · exact le_trans (ih (min init x)).1 (min_le_left _ _)
    · intro a ha
      rcases List.mem_cons.mp ha with h | h
      · subst h
        exact le_trans (ih (min init a)).1 (min_le_right _ _)
      · exact (ih (min init x)).2 a h

theorem le_foldl_max (xs : List ℚ) : ∀ init : ℚ,
    init ≤ xs.foldl max init ∧ ∀ a ∈ xs, a ≤ xs.foldl max init := by
  induction xs with
  | nil => intro init; exact ⟨le_rfl, by simp⟩
  | cons x t ih =>
    intro init
    constructor
    · exact le_trans (le_max_left _ _) (ih (max init x)).1
    · intro a ha
      rcases List.mem_cons.mp ha with h | h
      · subst h
        exact le_trans (le_max_right _ _) (ih (max init a)).1
      · exact (ih (max init x)).2 a h

theorem listMin_le_of_mem (l : List ℚ) (a : ℚ) (ha : a ∈ l) : listMin l ≤ a := by
  cases l with
  | nil => simp at ha
  | cons x xs =>
    unfold listMin
    rcases List.mem_cons.mp ha with h | h
    · subst h; exact (foldl_min_le xs a).1
    · exact (foldl_min_le xs x).2 a h

theorem le_listMax_of_mem (l : List ℚ) (a : ℚ) (ha : a ∈ l) : a ≤ listMax l := by
  cases l with
  | nil => simp at ha
  | cons x xs =>
    unfold listMax
    rcases List.mem_cons.mp ha with h | h
    · subst h; exact (le_foldl_max xs a).1
    · exact (le_foldl_max xs x).2 a h

theorem listMin_lt_listMax (l : List ℚ) (a b : ℚ) (ha : a ∈ l) (hb : b ∈ l)
    (hab : a ≠ b) : listMin l < listMax l := by
  rcases lt_or_gt_of_ne hab with h | h
  · exact lt_of_le_of_lt (listMin_le_of_mem l a ha)
      (lt_of_lt_of_le h (le_listMax_of_mem l b hb))
  · exact lt_of_le_of_lt (listMin_le_of_mem l b hb)
      (lt_of_lt_of_le h (le_listMax_of_mem l a ha))

/-- Claim C8 (corrected): `dqdv_single_cycle` performs no eager
parameter validation of its own; each smoothing window is validated by
the scipy filter itself, against the 10000-point resampled arrays it is
applied to — not against the input sample count — and only after the
grid interpolation has run. The pipeline fails exactly when a window is
even, exceeds 10000, or is not larger than its polynomial order. -/
theorem C8_theorem (M : SciModel) (capacity voltage : List ℚ) (k : ℕ) (s : ℚ)
    (p1 w1 p2 w2 : ℕ) (fs : Bool) :
    (dqdv_single_cycle M capacity voltage k s p1 w1 p2 w2 fs).isOk = true ↔
      (w1 % 2 ≠ 0 ∧ w1 ≤ 10000 ∧ p1 < w1 ∧ w2 % 2 ≠ 0 ∧ w2 ≤ 10000 ∧ p2 < w2) := by
  simp only [dqdv_single_cycle, savgol_filter, List.length_map, linspace_length]
  by_cases hA1 : w1 % 2 = 0
  · simp [hA1, isOk_error]
  by_cases hA2 : 10000 < w1
  · simp [hA1, hA2, isOk_error]
  by_cases hA3 : w1 ≤ p1
  · simp [hA1, hA2, hA3, isOk_error]
  by_cases hB1 : w2 % 2 = 0
  · simp [hA1, hA2, hA3, hB1, isOk_error]
  by_cases hB2 : 10000 < w2
  · simp [hA1, hA2, hA3, hB1, hB2, isOk_error]
  by_cases hB3 : w2 ≤ p2
  · simp [hA1, hA2, hA3, hB1, hB2, hB3, isOk_error]
  · simp [hA1, hA2, hA3, hB1, hB2, hB3, apply_ite, isOk_ok]
    omega

/-- Claim C8 counterexample: on a 3-sample input with first smoothing
window 101 — odd, larger than the sample count, larger than its
polynomial order — the pipeline succeeds instead of failing with
`InvalidParameter`: the window is compared against the 10000-point
resampled grid, never against the sample count. -/
theorem C8_counterexample :
    (dqdv_single_cycle sciModelTrivial [0, 1, 2] [0, 1, 2] 3 0 5 101 5 1001
      true).isOk = true ∧
    ([0, 1, 2] : List ℚ).length < 101 ∧ 101 % 2 = 1 := by
  refine ⟨?_, by norm_num, by norm_num⟩
  norm_num [dqdv_single_cycle, savgol_filter, List.length_map, linspace_length,
    apply_ite, isOk_ok]

/-- Claim C7 (confirmed): whenever the input voltage has two distinct
values and the pipeline succeeds, the three returned arrays have exactly
10000 entries, and the voltage grid is strictly increasing, starting at
the input minimum voltage and ending at the input maximum. Stated for
every scipy model whose smoothing filter preserves array length, as the
real one does. -/
theorem C7_theorem (M : SciModel) (capacity voltage : List ℚ) (k : ℕ) (s : ℚ)
    (p1 w1 p2 w2 : ℕ) (fs : Bool) (xs ds cs : List ℚ)
    (hcore : ∀ (l : List ℚ) (w p : ℕ), (M.savgolCore l w p).length = l.length)
    (hv : ∃ a ∈ voltage, ∃ b ∈ voltage, a ≠ b)
    (h : dqdv_single_cycle M capacity voltage k s p1 w1 p2 w2 fs = .ok (xs, ds, cs)) :
    xs.length = 10000 ∧ ds.length = 10000 ∧ cs.length = 10000 ∧
    List.Pairwise (fun x y => x < y) xs ∧
    xs.getD 0 0 = listMin voltage ∧ xs.getD 9999 0 = listMax voltage := by
  obtain ⟨a, ha, b, hb, hab⟩ := hv
  have hminmax : listMin voltage < listMax voltage :=
    listMin_lt_listMax voltage a b ha hb hab
  simp only [dqdv_single_cycle] at h
  rcases hs1 : savgol_filter M.savgolCore
      ((linspace (listMin voltage) (listMax voltage) 10000).map
        (M.splineEval (unique_sorted voltage)
          ((unique_sorted voltage).map (mean_at capacity voltage)) 1 0)) w1 p1
    with e1 | r1
  · rw [hs1] at h
    exact Except.noConfusion h
  rw [hs1] at h
  dsimp only at h
  rcases hs2 : savgol_filter M.savgolCore
      ((linspace (listMin voltage) (listMax voltage) 10000).map
        (M.splineDerivEval (linspace (listMin voltage) (listMax voltage) 10000) r1 k s))
      w2 p2
    with e2 | r2
  · rw [hs2] at h
    exact Except.noConfusion h
  rw [hs2] at h
  dsimp only at h
  have hr1 : r1.length = 10000 := by
    rw [savgol_filter_ok_shape _ _ _ _ _ hs1, hcore, List.length_map, linspace_length]
  have hr2 : r2.length = 10000 := by
    rw [savgol_filter_ok_shape _ _ _ _ _ hs2, hcore, List.length_map, linspace_length]
  have hlast9999 : (linspace (listMin voltage) (listMax voltage) 10000).getD 9999 0 =
      listMax voltage := by
    rw [show (9999 : ℕ) = 10000 - 1 from by norm_num]
    exact linspace_last (listMin voltage) (listMax voltage) 10000 (by norm_num)
  cases fs with
  | true =>
    rw [if_pos rfl] at h
    injection h with h
    rw [Prod.mk.injEq, Prod.mk.injEq] at h
    obtain ⟨hx, hd, hc⟩ := h
    subst hx
    subst hd
    subst hc
    refine ⟨?_, hr2, hr1, ?_, ?_, hlast9999⟩
    · exact linspace_length _ _ _
    · exact linspace_pairwise _ _ _ hminmax (by norm_num)
    · exact linspace_first _ _ _ (by norm_num)
  | false =>
    rw [if_neg (by simp)] at h
    injection h with h
    rw [Prod.mk.injEq, Prod.mk.injEq] at h
    obtain ⟨hx, hd, hc⟩ := h
    subst hx
    subst hd
    subst hc
    refine ⟨?_, ?_, hr1, ?_, ?_, hlast9999⟩
    · exact linspace_length _ _ _
    · rw [List.length_map, linspace_length]
    · exact linspace_pairwise _ _ _ hminmax (by norm_num)
    · exact linspace_first _ _ _ (by norm_num)

/-- Witness for C7: the trivial scipy model on voltage `[0, 1]`,
capacity `[0, 1]`, with windows `1` and polynomial orders `0`: the
pipeline succeeds and its grid has 10000 strictly increasing entries
from `min = 0` to `max = 1`. -/
theorem C7_witness :
    wGrid.length = 10000 ∧ wDer.length = 10000 ∧ wCap.length = 10000 ∧
    List.Pairwise (fun x y => x < y) wGrid ∧
    wGrid.getD 0 0 = listMin [0, 1] ∧ wGrid.getD 9999 0 = listMax [0, 1] :=
  C7_theorem sciModelTrivial [0, 1] [0, 1] 3 0 0 1 0 1 true wGrid wDer wCap
    (fun _ _ _ => rfl)
    ⟨0, by norm_num, 1, by norm_num, by norm_num⟩
    (by
      unfold wDer wCap wGrid
      norm_num [dqdv_single_cycle, savgol_filter, List.length_map,
        linspace_length, sciModelTrivial])

/-- Witness for C1 at the classifying value `0`: the Arbin classifier
rests, the Ivium classifier does not. -/
theorem C1_witness :
    (arbin_state 0 = St.rest) ∧ ivium_state 0 ≠ St.rest ∧
    neware_state "Rest" = NwSt.rest :=
  ⟨(C1_theorem.1 0).1.mpr rfl, (C1_theorem.2.1 0).1,
    (C1_theorem.2.2 "Rest").mpr rfl⟩

/-- Witness for C8: with both windows equal to `1` (odd, at most 10000,
larger than polynomial order `0`) the pipeline succeeds. -/
theorem C8_witness :
    (dqdv_single_cycle sciModelTrivial [0, 1] [0, 1] 3 0 0 1 0 1 true).isOk = true :=
  (C8_theorem sciModelTrivial [0, 1] [0, 1] 3 0 0 1 0 1 true).mpr
    (by norm_num)

/-- Witness for C9 on the `missing` layout: the Biologic step returns a
result whose capacity is absent and whose warning fired. -/
theorem C9_witness :
    ∃ r : BioResult, biologic_capacity [0] BioChargeCols.missing = .ok r ∧
      (r.capacity = none ↔ BioChargeCols.missing = BioChargeCols.missing) ∧
      (r.warned = true ↔ BioChargeCols.missing = BioChargeCols.missing) :=
  C9_theorem.2 [0] BioChargeCols.missing
